import Mathlib

/-!
# Verification of `omnizart/feature/beat_for_drum.py`

Shallow embedding of the beat-tracking and mini-beat interpolation module.
Real-valued quantities (beat timestamps in seconds, BPM values) are modelled
by exact rationals `ℚ`; numpy arrays of floats become `List ℚ`; Python ints
become `ℤ`/`ℕ`.  The three madmom estimator invocations are external
black-box services (spec §6) and are modelled as parameters (`BeatEstimators`).
-/

/-- `np.mean` of a list: sum divided by length (the claims only use it on
non-empty lists; on `[]` rational division by zero yields `0`). -/
def mean (l : List ℚ) : ℚ := l.sum / l.length

/-- `pred_beats[1:] - pred_beats[:-1]`: the inter-beat intervals. -/
def interBeatIntervals (b : List ℚ) : List ℚ :=
  List.zipWith (fun x y => y - x) b b.tail

/-- `np.sort`: ascending sort of a float array (modelled by insertion sort,
which is extensionally the unique ascending reordering). -/
def npSort (l : List ℚ) : List ℚ := l.insertionSort (· ≤ ·)

/-- Lines 80-83 / 85-88 / 90-93 of `beat_for_drum.py`: the trimmed slice
`np.sort(pred_beats[1:] - pred_beats[:-1])[int(len(pred_beats)*0.2):int(len(pred_beats)*0.8)]`.
`int(N*0.2)` and `int(N*0.8)` equal `⌊N/5⌋` and `⌊4N/5⌋` exactly (the float
literals 0.2 and 0.8 are slightly above the true values, so truncation of the
product never drops below the exact floor); a Python slice `[lo:hi]` is
`(take hi).drop lo`, both ends clamped. -/
def trimmedIntervals (pred_beats : List ℚ) : List ℚ :=
  ((npSort (interBeatIntervals pred_beats)).take (4 * pred_beats.length / 5)).drop
    (pred_beats.length / 5)

/-- `pred_beat_len = np.mean(trimmed slice)`. -/
def pred_beat_len (pred_beats : List ℚ) : ℚ := mean (trimmedIntervals pred_beats)

/-- `pred_bpm = 60.0 / pred_beat_len`: the tempo estimate computed inside
`MadmomBeatTracking.process` for each first-pass beat array. -/
def pred_bpm (pred_beats : List ℚ) : ℚ := 60 / pred_beat_len pred_beats

/-- `np.round`: IEEE round-half-to-even on an exact rational. -/
def roundHalfEven (q : ℚ) : ℤ :=
  if q - ⌊q⌋ < 1/2 then ⌊q⌋
  else if 1/2 < q - ⌊q⌋ then ⌊q⌋ + 1
  else if ⌊q⌋ % 2 = 0 then ⌊q⌋ else ⌊q⌋ + 1

/-- Line 150 of `beat_for_drum.py`:
`mini_beat_div_n = np.round(mini_beat_div_n / 4).astype("int")` —
the per-beat subdivision count. -/
def mini_beat_divisions (mini_beat_div_n : ℤ) : ℤ :=
  roundHalfEven ((mini_beat_div_n : ℚ) / 4)

/-- The 0-based segment index `scipy.interpolate.interp1d` selects for query
point `x` over the nodes `1, 2, ..., N` (line 153): the segment between nodes
`j+1` and `j+2`, clamped so that queries left of node 1 extrapolate on the
first segment and queries right of node `N` extrapolate on the last
(`fill_value="extrapolate"`). -/
def segIdx (N : ℕ) (x : ℚ) : ℤ := min (max (⌊x⌋ - 1) 0) ((N : ℤ) - 2)

/-- `beat_map_func = scipy.interpolate.interp1d(beat_abs_idx, beat_time_ary_in,
fill_value="extrapolate")` where `beat_abs_idx = arange(len(beat_arr)) + 1`:
piecewise-linear interpolation through the points `(i+1, beat_arr[i])`, with
linear extrapolation beyond both ends. -/
def beat_map_func (beat_arr : List ℚ) (x : ℚ) : ℚ :=
  let j := (segIdx beat_arr.length x).toNat
  beat_arr.getD j 0 + (x - (j + 1)) * (beat_arr.getD (j + 1) 0 - beat_arr.getD j 0)

/-- Line 155: `mini_beat_abs_idx = np.arange(0, beat_arr.shape[0] + 1, 1/d)` in
exact arithmetic: the values `k/d` for `0 ≤ k < (N+1)·d` (an `arange` excludes
its stop value; with exact step `1/d` that is every multiple of `1/d` strictly
below `N+1`). -/
def mini_beat_abs_idx (N d : ℕ) : List ℚ :=
  (List.range ((N + 1) * d)).map (fun k : ℕ => (k : ℚ) / d)

/-- Lines 148-161 of `beat_for_drum.py`: `extract_mini_beat_from_beat_arr`.
Faithful for `mini_beat_div_n ≥ 0` (for negative values `.astype("int")`
truncates toward zero while `toNat` clamps; every claim is in the
non-negative range). -/
def extract_mini_beat_from_beat_arr (beat_arr : List ℚ) (audio_len_sec : ℚ)
    (mini_beat_div_n : ℤ) : List ℚ :=
  let d := (mini_beat_divisions mini_beat_div_n).toNat
  let idx := mini_beat_abs_idx beat_arr.length d
  let mini_beat_pos_t := idx.map (beat_map_func beat_arr)
  ((mini_beat_pos_t.filter (fun x => decide (0 ≤ x))).filter
    (fun x => decide (x ≤ audio_len_sec)))

/-- State-passing rendering of `extract_mini_beat_from_beat_arr`: the caller's
`beat_arr` buffer is threaded through and returned alongside the result.  The
Python body's only access to the input is the copy `np.array(beat_arr)`
(line 152); nothing writes to the input, so the final state is the initial
one. -/
def extract_mini_beat_stateful (beat_arr : List ℚ) (audio_len_sec : ℚ)
    (mini_beat_div_n : ℤ) : List ℚ × List ℚ :=
  let beat_time_ary_in := beat_arr
  (extract_mini_beat_from_beat_arr beat_time_ary_in audio_len_sec mini_beat_div_n,
    beat_arr)

/-- The semantic role tags used as dictionary keys in the parallel branch
(line 69: `{future_1: "dbn_down_beat", future_2: "dbn_beat", future_3: "beat"}`). -/
inductive Role where
  | dbn_down_beat
  | dbn_beat
  | beat
deriving DecidableEq

/-- The three black-box estimator configurations of `MadmomBeatTracking`
(spec §4.1), abstracted over the audio type.  `get_dbn_down_beat` takes the
audio and the `min_bpm` / `max_bpm` bounds. -/
structure BeatEstimators (α : Type) where
  get_dbn_down_beat : α → ℚ → ℚ → List ℚ
  get_dbn_beat : α → List ℚ
  get_beat : α → List ℚ

/-- The value each submitted future resolves to (lines 65-67): the estimator
call associated with its role tag, with `_get_dbn_down_beat` receiving the
first-pass bounds 50 and 230. -/
def futureResult {α : Type} (E : BeatEstimators α) (audio_data : α) : Role → List ℚ
  | Role.dbn_down_beat => E.get_dbn_down_beat audio_data 50 230
  | Role.dbn_beat => E.get_dbn_beat audio_data
  | Role.beat => E.get_beat audio_data

/-- Dictionary access `results[func_name]` on the assoc list built in
completion order; `none` models a `KeyError`. -/
def lookupRole (r : Role) : List (Role × List ℚ) → Option (List ℚ)
  | [] => none
  | (k, v) :: rest => if r = k then some v else lookupRole r rest

/-- Lines 80-97 of `beat_for_drum.py`: the tail of `process` after the three
first-pass beat arrays are available — three trimmed-mean BPM estimates, their
unweighted mean, and the second downbeat-constrained pass with the ±38%
band. -/
def processTail {α : Type} (E : BeatEstimators α) (audio_data : α)
    (pred_beats1 pred_beats2 pred_beats3 : List ℚ) : List ℚ :=
  let pred_bpm1 := 60 / pred_beat_len pred_beats1
  let pred_bpm2 := 60 / pred_beat_len pred_beats2
  let pred_bpm3 := 60 / pred_beat_len pred_beats3
  let pred_bpm_avg := (pred_bpm1 + pred_bpm2 + pred_bpm3) / 3
  E.get_dbn_down_beat audio_data (pred_bpm_avg / 1.38) (pred_bpm_avg * 1.38)

/-- `MadmomBeatTracking.process` (lines 55-97).  The nondeterministic order in
which `as_completed` yields the three futures is an oracle parameter
`completion_order` (ignored by the sequential branch); in a real run it is a
permutation of the three roles.  A missing dictionary key (`KeyError`) is
`none`. -/
def process {α : Type} (E : BeatEstimators α) (parallel_workers : ℕ)
    (completion_order : List Role) (audio_data : α) : Option (List ℚ) :=
  if parallel_workers = 0 then
    some (processTail E audio_data
      (E.get_dbn_down_beat audio_data 50 230)
      (E.get_dbn_beat audio_data)
      (E.get_beat audio_data))
  else
    let results := completion_order.map (fun r => (r, futureResult E audio_data r))
    match lookupRole Role.dbn_down_beat results,
        lookupRole Role.dbn_beat results,
        lookupRole Role.beat results with
    | some pred_beats1, some pred_beats2, some pred_beats3 =>
        some (processTail E audio_data pred_beats1 pred_beats2 pred_beats3)
    | _, _, _ => none

/-- The consensus second-pass call the spec describes: mean of the three
first-pass BPM estimates feeding the ±38% band. -/
def consensus_bpm {α : Type} (E : BeatEstimators α) (audio_data : α) : ℚ :=
  (pred_bpm (E.get_dbn_down_beat audio_data 50 230) +
    pred_bpm (E.get_dbn_beat audio_data) +
    pred_bpm (E.get_beat audio_data)) / 3

/-! ## Timed model of the parallel dispatch (for the 600-second ceiling)

In the source, the `with ProcessPoolExecutor(...)` block closes immediately
after the three submissions (line 69 is the last statement inside it), so the
context-manager exit calls `executor.shutdown(wait=True)`, which blocks with
no time limit until every submitted future has completed.  Only afterwards is
`concurrent.futures.as_completed(queue, timeout=600)` entered (line 72).
`as_completed` raises `TimeoutError` only when a future in the set is still
incomplete 600 seconds after the `as_completed` call itself.  We model each
task by its completion time (seconds from submission). -/

/-- The instant the `with` block exits: all three futures joined, however long
they take. -/
def poolShutdownTime (d1 d2 d3 : ℚ) : ℚ := max d1 (max d2 d3)

/-- Whether `as_completed(fs, timeout=600)` entered at `callTime` raises
`TimeoutError`: true iff some future completes later than `callTime + 600`. -/
def asCompletedTimesOut (callTime : ℚ) (completionTimes : List ℚ) : Bool :=
  completionTimes.any (fun t => decide (callTime + 600 < t))

/-- Whether the parallel branch of `process` ever raises `TimeoutError`, as a
function of the three task durations: `as_completed` is entered only at
`poolShutdownTime`, after the unbounded join. -/
def parallelBranchTimesOut (d1 d2 d3 : ℚ) : Bool :=
  asCompletedTimesOut (poolShutdownTime d1 d2 d3) [d1, d2, d3]

/-! ## Strictly increasing beat arrays -/

/-- Executable strictly-increasing test on a list of timestamps. -/
def strictIncB : List ℚ → Bool
  | [] => true
  | [_] => true
  | x :: y :: t => decide (x < y) && strictIncB (y :: t)

/-- A Beat Time Array is an ordered sequence of strictly increasing
timestamps (spec §3). -/
def StrictlyIncreasing (l : List ℚ) : Prop := strictIncB l = true

/-! ## Spec-side definitions for refinement comparisons -/

/-- The spec's words for the Tempo Estimate, with the trim fractions taken
over the number of inter-beat **intervals** (claim C1's reading): discard the
lowest `⌊0.2·M⌋` and keep up to position `⌊0.8·M⌋` of the `M` sorted
intervals, then `60 / mean`. -/
def trimmed_mean_bpm_spec_intervals (pred_beats : List ℚ) : ℚ :=
  let M := (interBeatIntervals pred_beats).length
  60 / mean (((npSort (interBeatIntervals pred_beats)).take (4 * M / 5)).drop (M / 5))

/-- The amended spec wording for the Tempo Estimate: the trim indices are
`⌊0.2·N⌋` and `⌊0.8·N⌋` computed from the number of **beats** `N`; written
spec-style as "discard the first `⌊0.2·N⌋` sorted intervals, then keep the
next `⌊0.8·N⌋ − ⌊0.2·N⌋`". -/
def trimmed_mean_bpm_spec_beats (pred_beats : List ℚ) : ℚ :=
  let N := pred_beats.length
  60 / mean (((npSort (interBeatIntervals pred_beats)).drop (N / 5)).take
    (4 * N / 5 - N / 5))

instance (l : List ℚ) : Decidable (StrictlyIncreasing l) :=
  inferInstanceAs (Decidable (strictIncB l = true))

unseal Rat.add Rat.mul Rat.sub Rat.inv

/-! ## Helper lemmas -/

theorem strictIncB_iff_chain : ∀ l : List ℚ, strictIncB l = true ↔ l.Chain' (· < ·)
  | [] => by simp [strictIncB]
  | [x] => by simp [strictIncB]
  | x :: y :: t => by
      rw [strictIncB, List.chain'_cons, Bool.and_eq_true, decide_eq_true_iff,
        strictIncB_iff_chain (y :: t)]

theorem StrictlyIncreasing.pairwise {l : List ℚ} (h : StrictlyIncreasing l) :
    l.Pairwise (· < ·) :=
  List.chain'_iff_pairwise.mp ((strictIncB_iff_chain l).mp h)

theorem interBeatIntervals_cons (a b : ℚ) (t : List ℚ) :
    interBeatIntervals (a :: b :: t) = (b - a) :: interBeatIntervals (b :: t) := rfl

theorem interBeatIntervals_chain_pos :
    ∀ {l : List ℚ}, l.Chain' (· < ·) → ∀ x ∈ interBeatIntervals l, 0 < x
  | [], _, x, hx => by cases hx
  | [_], _, x, hx => by cases hx
  | a :: b :: t, h, x, hx => by
      rw [List.chain'_cons] at h
      rw [interBeatIntervals_cons] at hx
      rcases List.mem_cons.mp hx with rfl | hx'
      · exact sub_pos.mpr h.1
      · exact interBeatIntervals_chain_pos h.2 x hx'

theorem interBeatIntervals_pos {l : List ℚ} (h : StrictlyIncreasing l) :
    ∀ x ∈ interBeatIntervals l, 0 < x :=
  interBeatIntervals_chain_pos ((strictIncB_iff_chain l).mp h)

theorem length_interBeatIntervals (l : List ℚ) :
    (interBeatIntervals l).length = l.length - 1 := by
  simp only [interBeatIntervals, List.length_zipWith, List.length_tail]
  omega

theorem npSort_perm (l : List ℚ) : (npSort l).Perm l := List.perm_insertionSort _ l

theorem npSort_sorted (l : List ℚ) : (npSort l).Sorted (· ≤ ·) :=
  List.sorted_insertionSort _ l

theorem mean_pos {l : List ℚ} (h : ∀ x ∈ l, 0 < x) (hne : l ≠ []) : 0 < mean l := by
  unfold mean
  refine div_pos (List.sum_pos l h hne) ?_
  have : 0 < l.length := List.length_pos.mpr hne
  exact_mod_cast this

theorem mem_trimmedIntervals {b : List ℚ} {x : ℚ} (hx : x ∈ trimmedIntervals b) :
    x ∈ interBeatIntervals b :=
  (npSort_perm _).mem_iff.mp (List.mem_of_mem_take (List.mem_of_mem_drop hx))

theorem length_trimmedIntervals (b : List ℚ) :
    (trimmedIntervals b).length =
      min (4 * b.length / 5) (b.length - 1) - b.length / 5 := by
  unfold trimmedIntervals
  rw [List.length_drop, List.length_take, (npSort_perm _).length_eq,
    length_interBeatIntervals]

theorem roundHalfEven_ge_floor (q : ℚ) : ⌊q⌋ ≤ roundHalfEven q := by
  unfold roundHalfEven
  split
  · exact le_refl _
  split
  · omega
  split
  · exact le_refl _
  · omega

/-! ## Claim C6 -/

/-- C6: for every strictly increasing Beat Time Array of length at least 2, the
trimmed-interval slice taken in `MadmomBeatTracking.process` is non-empty and
the resulting trimmed-mean BPM is a positive (finite, being a rational)
value. -/
theorem c6_trimmed_bpm_pos (b : List ℚ) (h1 : StrictlyIncreasing b)
    (h2 : 2 ≤ b.length) : trimmedIntervals b ≠ [] ∧ 0 < pred_bpm b := by
  have hlen : (trimmedIntervals b).length ≠ 0 := by
    rw [length_trimmedIntervals]
    omega
  have hne : trimmedIntervals b ≠ [] := fun hcon => hlen (by rw [hcon]; rfl)
  refine ⟨hne, ?_⟩
  unfold pred_bpm pred_beat_len
  have hmp : 0 < mean (trimmedIntervals b) :=
    mean_pos (fun x hx => interBeatIntervals_pos h1 x (mem_trimmedIntervals hx)) hne
  exact div_pos (by norm_num) hmp

/-- C6 witness: the theorem applied to the concrete beat array `[0, 1, 2]`. -/
theorem c6_trimmed_bpm_pos_witness :
    StrictlyIncreasing [0, 1, 2] ∧ 2 ≤ ([0, 1, 2] : List ℚ).length ∧
      (trimmedIntervals [0, 1, 2] ≠ [] ∧ 0 < pred_bpm [0, 1, 2]) :=
  ⟨by decide, by decide, c6_trimmed_bpm_pos [0, 1, 2] (by decide) (by decide)⟩

/-! ## Claim C1 -/

/-- C1 counterexample: on the strictly increasing beat array
`[0, 1, 2, 3, 10]` (5 beats, 4 intervals) the tempo estimate computed by the
code (`pred_bpm`, slicing at `int(0.2·5) = 1` and `int(0.8·5) = 4` over the
**beat** count) is 20 BPM, while the claim's trimmed mean over the middle 60%
of the **intervals** (slicing at `int(0.2·4) = 0` and `int(0.8·4) = 3`) gives
60 BPM. -/
theorem c1_counterexample :
    StrictlyIncreasing [0, 1, 2, 3, 10] ∧
      2 ≤ ([0, 1, 2, 3, 10] : List ℚ).length ∧
      pred_bpm [0, 1, 2, 3, 10] ≠
        trimmed_mean_bpm_spec_intervals [0, 1, 2, 3, 10] := by
  decide

/-- C1 (amended): for every strictly increasing Beat Time Array of length at
least 2, the tempo estimate computed inside `MadmomBeatTracking.process`
equals 60 divided by the mean of the sorted inter-beat intervals after
discarding the first `⌊0.2·N⌋` of them and keeping the next
`⌊0.8·N⌋ − ⌊0.2·N⌋`, where the trim counts are quantified over the number of
beats `N`, not the number of intervals. -/
theorem c1_tempo_trim_over_beats (b : List ℚ) (h1 : StrictlyIncreasing b)
    (h2 : 2 ≤ b.length) : pred_bpm b = trimmed_mean_bpm_spec_beats b := by
  unfold pred_bpm pred_beat_len trimmedIntervals trimmed_mean_bpm_spec_beats
  rw [List.drop_take]

/-- C1 witness: the amended theorem applied to `[0, 1, 2, 3, 10]`. -/
theorem c1_tempo_trim_over_beats_witness :
    StrictlyIncreasing [0, 1, 2, 3, 10] ∧
      2 ≤ ([0, 1, 2, 3, 10] : List ℚ).length ∧
      pred_bpm [0, 1, 2, 3, 10] = trimmed_mean_bpm_spec_beats [0, 1, 2, 3, 10] :=
  ⟨by decide, by decide,
    c1_tempo_trim_over_beats [0, 1, 2, 3, 10] (by decide) (by decide)⟩

/-! ## Claim C2 -/

/-- C2 counterexample: `mini_beat_div_n = 2` satisfies the claim's
precondition `mini_beat_div_n ≥ 2`, yet the per-beat subdivision count is
`np.round(2/4) = np.round(0.5) = 0` (round-half-to-even), not at least 1. -/
theorem c2_counterexample : (2 : ℤ) ≤ 2 ∧ ¬(1 ≤ mini_beat_divisions 2) := by
  decide

/-- C2 (amended): for every integer `mini_beat_div_n ≥ 3`,
`extract_mini_beat_from_beat_arr` computes a per-beat subdivision count
`np.round(mini_beat_div_n / 4)` of at least 1, so the division-by-zero case
the spec warns about is unreachable under that precondition (at
`mini_beat_div_n = 2` the count is 0 because `np.round` rounds the tie 0.5
down to the even integer 0). -/
theorem c2_divisions_pos (n : ℤ) (h : 3 ≤ n) : 1 ≤ mini_beat_divisions n := by
  rcases eq_or_lt_of_le h with h3 | h4
  · rw [← h3]
    decide
  · unfold mini_beat_divisions
    have h4' : (4 : ℚ) ≤ (n : ℚ) := by exact_mod_cast h4
    have hfl : (1 : ℤ) ≤ ⌊(n : ℚ) / 4⌋ := by
      rw [Int.le_floor]
      rw [le_div_iff₀ (by norm_num : (0:ℚ) < 4)]
      push_cast
      linarith
    exact le_trans hfl (roundHalfEven_ge_floor _)

/-- C2 witness: the amended theorem applied at `mini_beat_div_n = 3`. -/
theorem c2_divisions_pos_witness : (3 : ℤ) ≤ 3 ∧ 1 ≤ mini_beat_divisions 3 :=
  ⟨by decide, c2_divisions_pos 3 (by decide)⟩

/-! ## Claim C8 -/

/-- C8 (code behaviour at the failing input, for all task durations): the
parallel branch never raises `TimeoutError`, whatever the three estimator
task durations are — in particular not when all three need 700 seconds.  The
`with` block joins every future with an unbounded wait before
`as_completed(queue, timeout=600)` is entered, so by the time the 600-second
deadline starts counting, every future is already complete. -/
theorem c8_timeout_never_raised (d1 d2 d3 : ℚ) :
    parallelBranchTimesOut d1 d2 d3 = false := by
  unfold parallelBranchTimesOut asCompletedTimesOut poolShutdownTime
  rw [List.any_eq_false]
  intro t ht
  have ht3 : t = d1 ∨ t = d2 ∨ t = d3 := by simpa using ht
  simp only [decide_eq_true_iff, not_lt]
  rcases ht3 with rfl | rfl | rfl
  · have := le_max_left t (max d2 d3)
    linarith
  · have := le_trans (le_max_left t d3) (le_max_right d1 (max t d3))
    linarith
  · have := le_trans (le_max_right d2 t) (le_max_right d1 (max d2 t))
    linarith

/-! ## Claim C10 -/

/-- C10: `extract_mini_beat_from_beat_arr` does not modify its input beat
array (the state-passing rendering returns the input unchanged), and calling
it a second time on the state left by the first call yields an identical
result — it is a pure function of its three arguments. -/
theorem c10_pure_idempotent (beat_arr : List ℚ) (audio_len_sec : ℚ)
    (mini_beat_div_n : ℤ) :
    (extract_mini_beat_stateful beat_arr audio_len_sec mini_beat_div_n).2 =
        beat_arr ∧
      extract_mini_beat_stateful
          (extract_mini_beat_stateful beat_arr audio_len_sec mini_beat_div_n).2
          audio_len_sec mini_beat_div_n =
        extract_mini_beat_stateful beat_arr audio_len_sec mini_beat_div_n :=
  ⟨rfl, rfl⟩

/-! ## Claims C5 and C7: the ensemble consensus in `process` -/

theorem lookupRole_map_self {α : Type} (E : BeatEstimators α) (audio_data : α)
    (order : List Role) (r : Role) (h : r ∈ order) :
    lookupRole r (order.map (fun x => (x, futureResult E audio_data x))) =
      some (futureResult E audio_data r) := by
  induction order with
  | nil => cases h
  | cons a as ih =>
      rw [List.map_cons]
      by_cases hr : r = a
      · subst hr
        simp [lookupRole]
      · rw [lookupRole, if_neg hr]
        rcases List.mem_cons.mp h with h' | h'
        · exact absurd h' hr
        · exact ih h'

theorem process_eq_second_pass {α : Type} (E : BeatEstimators α)
    (parallel_workers : ℕ) (completion_order : List Role) (audio_data : α)
    (h : parallel_workers = 0 ∨
      completion_order.Perm [Role.dbn_down_beat, Role.dbn_beat, Role.beat]) :
    process E parallel_workers completion_order audio_data =
      some (E.get_dbn_down_beat audio_data (consensus_bpm E audio_data / 1.38)
        (consensus_bpm E audio_data * 1.38)) := by
  by_cases hw : parallel_workers = 0
  · rw [process, if_pos hw]
    rfl
  · rcases h with h0 | hperm
    · exact absurd h0 hw
    · have hmem : ∀ r : Role, r ∈ completion_order := fun r =>
        hperm.mem_iff.mpr (by cases r <;> simp)
      rw [process, if_neg hw]
      simp only [lookupRole_map_self E audio_data completion_order _ (hmem _)]
      rfl

/-- C5: for every audio input (and, in parallel mode, every completion order
of the three futures), `MadmomBeatTracking.process` computes the consensus BPM
as the unweighted mean of the three first-pass BPM estimates, re-invokes the
downbeat-constrained estimator with `min_bpm = consensus/1.38` and
`max_bpm = consensus*1.38`, and returns that second-pass result unchanged. -/
theorem c5_consensus_second_pass {α : Type} (E : BeatEstimators α)
    (parallel_workers : ℕ) (completion_order : List Role) (audio_data : α)
    (h : parallel_workers = 0 ∨
      completion_order.Perm [Role.dbn_down_beat, Role.dbn_beat, Role.beat]) :
    process E parallel_workers completion_order audio_data =
      some (E.get_dbn_down_beat audio_data (consensus_bpm E audio_data / 1.38)
        (consensus_bpm E audio_data * 1.38)) :=
  process_eq_second_pass E parallel_workers completion_order audio_data h

/-- Concrete closed estimator triple used by the witnesses of the `process`
claims. -/
def demoEstimators : BeatEstimators Unit where
  get_dbn_down_beat := fun _ mn mx => [mn, mx]
  get_dbn_beat := fun _ => [0, 1, 2]
  get_beat := fun _ => [0, 2, 4]

/-- C5 witness: the theorem applied to the concrete estimators in sequential
mode. -/
theorem c5_consensus_second_pass_witness :
    ((0 : ℕ) = 0 ∨
        ([] : List Role).Perm [Role.dbn_down_beat, Role.dbn_beat, Role.beat]) ∧
      process demoEstimators 0 [] () =
        some (demoEstimators.get_dbn_down_beat ()
          (consensus_bpm demoEstimators () / 1.38)
          (consensus_bpm demoEstimators () * 1.38)) :=
  ⟨Or.inl rfl, c5_consensus_second_pass demoEstimators 0 [] () (Or.inl rfl)⟩

/-- C7: with deterministic estimators, `MadmomBeatTracking.process` in
parallel mode (`parallel_workers ≠ 0`, any completion order of the three
role-tagged futures) returns exactly the same final Beat Time Array as in
sequential mode (`parallel_workers = 0`). -/
theorem c7_parallel_eq_sequential {α : Type} (E : BeatEstimators α)
    (parallel_workers : ℕ) (completion_order : List Role) (audio_data : α)
    (hw : parallel_workers ≠ 0)
    (hp : completion_order.Perm [Role.dbn_down_beat, Role.dbn_beat, Role.beat]) :
    process E parallel_workers completion_order audio_data =
      process E 0 [] audio_data := by
  rw [process_eq_second_pass E parallel_workers completion_order audio_data
      (Or.inr hp),
    process_eq_second_pass E 0 [] audio_data (Or.inl rfl)]

/-- C7 witness: the theorem applied to the concrete estimators with 3 workers
and the completion order `beat, dbn_down_beat, dbn_beat`. -/
theorem c7_parallel_eq_sequential_witness :
    (3 : ℕ) ≠ 0 ∧
      ([Role.beat, Role.dbn_down_beat, Role.dbn_beat] : List Role).Perm
        [Role.dbn_down_beat, Role.dbn_beat, Role.beat] ∧
      process demoEstimators 3 [Role.beat, Role.dbn_down_beat, Role.dbn_beat] () =
        process demoEstimators 0 [] () :=
  ⟨by decide, by decide,
    c7_parallel_eq_sequential demoEstimators 3
      [Role.beat, Role.dbn_down_beat, Role.dbn_beat] () (by decide) (by decide)⟩

/-! ## Claim C9 -/

/-- C9: `extract_mini_beat_from_beat_arr` samples the fractional beat indices
`0, 1/d, 2/d, ...`, including every index `k/d` strictly below `N + 1`; in
particular index 0 (one extrapolated step before the first beat) is always
sampled, and when `d ≥ 2` exactly `d − 1` sampled indices are strictly
greater than the last beat index `N` (they run up to `N + 1 − 1/d`), settling
the spec's open question about the sampling range's bounds. -/
theorem c9_sampling_range (N d k : ℕ) (hN : 2 ≤ N) (hd : 1 ≤ d)
    (hk : (k : ℚ) / d < N + 1) :
    (k : ℚ) / d ∈ mini_beat_abs_idx N d ∧
      (0 : ℚ) ∈ mini_beat_abs_idx N d ∧
      (2 ≤ d →
        ((mini_beat_abs_idx N d).filter
            (fun x => decide ((N : ℚ) < x))).length = d - 1) := by
  have hd0 : (0 : ℚ) < d := by exact_mod_cast hd
  refine ⟨?_, ?_, ?_⟩
  · have hkq : (k : ℚ) < (N + 1) * d := (div_lt_iff₀ hd0).mp hk
    have hkn : k < (N + 1) * d := by exact_mod_cast hkq
    exact List.mem_map.mpr ⟨k, List.mem_range.mpr hkn, rfl⟩
  · refine List.mem_map.mpr ⟨0, List.mem_range.mpr ?_, by simp⟩
    have : 0 < (N + 1) * d := Nat.mul_pos (by omega) (by omega)
    exact this
  · intro hd2
    have hsplit : (N + 1) * d = (N * d + 1) + (d - 1) := by
      have : (N + 1) * d = N * d + d := by ring
      omega
    rw [mini_beat_abs_idx, hsplit, List.range_add, List.map_append,
      List.filter_append]
    have h1 : ((List.range (N * d + 1)).map fun k : ℕ => (k : ℚ) / d).filter
        (fun x => decide ((N : ℚ) < x)) = [] := by
      rw [List.filter_eq_nil_iff]
      intro a ha
      rcases List.mem_map.mp ha with ⟨m, hm, rfl⟩
      have hmN : m ≤ N * d := by
        have := List.mem_range.mp hm
        omega
      simp only [decide_eq_true_iff, not_lt]
      rw [div_le_iff₀ hd0]
      exact_mod_cast hmN
    have h2 : (((List.range (d - 1)).map fun x => N * d + 1 + x).map
          fun k : ℕ => (k : ℚ) / d).filter (fun x => decide ((N : ℚ) < x)) =
        ((List.range (d - 1)).map fun x => N * d + 1 + x).map
          fun k : ℕ => (k : ℚ) / d := by
      rw [List.filter_eq_self]
      intro a ha
      rcases List.mem_map.mp ha with ⟨m, hm, rfl⟩
      rcases List.mem_map.mp hm with ⟨i, _, rfl⟩
      simp only [decide_eq_true_iff]
      rw [lt_div_iff₀ hd0]
      have : N * d < N * d + 1 + i := by omega
      exact_mod_cast this
    rw [h1, h2, List.nil_append, List.length_map, List.length_map,
      List.length_range]

/-- C9 witness: the theorem applied at `N = 2`, `d = 2`, `k = 5`. -/
theorem c9_sampling_range_witness :
    2 ≤ 2 ∧ 1 ≤ 2 ∧ ((5 : ℕ) : ℚ) / (2 : ℕ) < (2 : ℕ) + 1 ∧
      (((5 : ℕ) : ℚ) / (2 : ℕ) ∈ mini_beat_abs_idx 2 2 ∧
        (0 : ℚ) ∈ mini_beat_abs_idx 2 2 ∧
        (2 ≤ 2 →
          ((mini_beat_abs_idx 2 2).filter
              (fun x => decide (((2 : ℕ) : ℚ) < x))).length = 2 - 1)) :=
  ⟨by decide, by decide, by decide,
    c9_sampling_range 2 2 5 (by decide) (by decide) (by decide)⟩

/-! ## Interpolation node lemmas -/

theorem getD_pairwise_lt {b : List ℚ} (hp : b.Pairwise (· < ·)) {i k : ℕ}
    (hik : i < k) (hk : k < b.length) : b.getD i 0 < b.getD k 0 := by
  have hi : i < b.length := lt_trans hik hk
  rw [List.getD_eq_getElem b 0 hi, List.getD_eq_getElem b 0 hk]
  exact List.pairwise_iff_getElem.mp hp i k hi hk hik

theorem getD_pairwise_le {b : List ℚ} (hp : b.Pairwise (· < ·)) {i k : ℕ}
    (hik : i ≤ k) (hk : k < b.length) : b.getD i 0 ≤ b.getD k 0 := by
  rcases eq_or_lt_of_le hik with rfl | h
  · exact le_refl _
  · exact le_of_lt (getD_pairwise_lt hp h hk)

theorem beat_map_func_zero {b : List ℚ} (h2 : 2 ≤ b.length) :
    beat_map_func b 0 = 2 * b.getD 0 0 - b.getD 1 0 := by
  have hseg : segIdx b.length 0 = 0 := by
    unfold segIdx
    rw [Int.floor_zero]
    omega
  simp only [beat_map_func, hseg, Int.toNat_zero]
  norm_num
  ring

theorem beat_map_func_node {b : List ℚ} (h2 : 2 ≤ b.length) {i : ℕ}
    (hi : i < b.length) : beat_map_func b ((i : ℚ) + 1) = b.getD i 0 := by
  have hfl : ⌊(i : ℚ) + 1⌋ = (i : ℤ) + 1 := by
    rw [Int.floor_add_one, Int.floor_natCast]
  by_cases hle : i + 1 < b.length
  · have hseg : segIdx b.length ((i : ℚ) + 1) = (i : ℤ) := by
      unfold segIdx
      rw [hfl]
      omega
    simp only [beat_map_func, hseg, Int.toNat_natCast]
    ring
  · have hlen : i + 1 = b.length := by omega
    have hseg : segIdx b.length ((i : ℚ) + 1) = (b.length : ℤ) - 2 := by
      unfold segIdx
      rw [hfl]
      omega
    have ht : ((b.length : ℤ) - 2).toNat = b.length - 2 := by omega
    have h21 : b.length - 2 + 1 = i := by omega
    simp only [beat_map_func, hseg, ht, h21]
    have hcast : ((b.length - 2 : ℕ) : ℚ) = (b.length : ℚ) - 2 := by
      push_cast [h2]
      ring
    have hlenq : (b.length : ℚ) = (i : ℚ) + 1 := by exact_mod_cast hlen.symm
    rw [hcast, hlenq]
    ring

/-! ## Claim C3 -/

/-- C3 counterexample: the strictly increasing beat array `[1, 2]` lies
entirely inside `[0, 10]`, yet with `mini_beat_div_n = 4` (1 division per
beat) the function returns `[0, 1, 2]`, not the original array: the sampling
starts at fractional index 0, and the extrapolated timestamp
`2·1 − 2 = 0` survives both range filters. -/
theorem c3_counterexample :
    StrictlyIncreasing [1, 2] ∧ (∀ x ∈ ([1, 2] : List ℚ), 0 ≤ x ∧ x ≤ 10) ∧
      extract_mini_beat_from_beat_arr [1, 2] 10 4 ≠ [1, 2] := by
  decide

/-- C3 (amended): for every strictly increasing beat array of length ≥ 2
whose timestamps all lie within `[0, audio_len_sec]`, calling
`extract_mini_beat_from_beat_arr` with `mini_beat_div_n = 4` returns the
original beat array with the single extrapolated timestamp
`2·beat_arr[0] − beat_arr[1]` prepended when that value is ≥ 0 (it can never
exceed `audio_len_sec`); when that value is negative the output equals the
original beat array exactly. -/
theorem c3_div4_prepends_extrapolated (b : List ℚ) (L : ℚ)
    (h1 : StrictlyIncreasing b) (h2 : 2 ≤ b.length)
    (h3 : ∀ x ∈ b, 0 ≤ x ∧ x ≤ L) :
    extract_mini_beat_from_beat_arr b L 4 =
      (if 0 ≤ 2 * b.getD 0 0 - b.getD 1 0 then [2 * b.getD 0 0 - b.getD 1 0]
        else []) ++ b := by
  have hp : b.Pairwise (· < ·) := h1.pairwise
  have hd : (mini_beat_divisions 4).toNat = 1 := by decide
  have hidx : mini_beat_abs_idx b.length 1 =
      (List.range (b.length + 1)).map (fun k : ℕ => (k : ℚ)) := by
    unfold mini_beat_abs_idx
    simp
  have hmap : (mini_beat_abs_idx b.length 1).map (beat_map_func b) =
      (2 * b.getD 0 0 - b.getD 1 0) :: b := by
    rw [hidx, List.range_succ_eq_map, List.map_cons, List.map_cons,
      List.map_map, List.map_map]
    congr 1
    · rw [Nat.cast_zero]
      exact beat_map_func_zero h2
    · apply List.ext_getElem
      · simp
      · intro n hn1 hn2
        have hn : n < b.length := by simpa using hn2
        simp only [List.getElem_map, List.getElem_range, Function.comp]
        rw [show ((Nat.succ n : ℕ) : ℚ) = (n : ℚ) + 1 from by push_cast; ring]
        rw [beat_map_func_node h2 hn, List.getD_eq_getElem b 0 hn]
  simp only [extract_mini_beat_from_beat_arr, hd, hmap]
  have hfb0 : b.filter (fun x => decide (0 ≤ x)) = b :=
    List.filter_eq_self.mpr (fun a ha => decide_eq_true (h3 a ha).1)
  have hfbL : b.filter (fun x => decide (x ≤ L)) = b :=
    List.filter_eq_self.mpr (fun a ha => decide_eq_true (h3 a ha).2)
  have hb0mem : b.getD 0 0 ∈ b := by
    rw [List.getD_eq_getElem b 0 (by omega)]
    exact List.getElem_mem _
  have h01 : b.getD 0 0 < b.getD 1 0 := getD_pairwise_lt hp (by omega) (by omega)
  have heL : 2 * b.getD 0 0 - b.getD 1 0 ≤ L := by
    have := (h3 _ hb0mem).2
    linarith
  by_cases he : 0 ≤ 2 * b.getD 0 0 - b.getD 1 0
  · rw [if_pos he, List.filter_cons, if_pos (decide_eq_true he), hfb0,
      List.filter_cons, if_pos (decide_eq_true heL), hfbL]
    rfl
  · rw [if_neg he, List.filter_cons, if_neg (by simpa using he), hfb0, hfbL]
    rfl

/-- C3 witness: the amended theorem applied to `[1, 2]` with
`audio_len_sec = 10`. -/
theorem c3_div4_prepends_extrapolated_witness :
    StrictlyIncreasing [1, 2] ∧ 2 ≤ ([1, 2] : List ℚ).length ∧
      (∀ x ∈ ([1, 2] : List ℚ), 0 ≤ x ∧ x ≤ 10) ∧
      extract_mini_beat_from_beat_arr [1, 2] 10 4 =
        (if 0 ≤ 2 * ([1, 2] : List ℚ).getD 0 0 - ([1, 2] : List ℚ).getD 1 0 then
          [2 * ([1, 2] : List ℚ).getD 0 0 - ([1, 2] : List ℚ).getD 1 0]
         else []) ++ [1, 2] :=
  ⟨by decide, by decide, by decide,
    c3_div4_prepends_extrapolated [1, 2] 10 (by decide) (by decide) (by decide)⟩

/-! ## Monotonicity of the interpolation map -/

theorem segIdx_bounds {N : ℕ} (h2 : 2 ≤ N) (x : ℚ) :
    0 ≤ segIdx N x ∧ segIdx N x ≤ (N : ℤ) - 2 := by
  unfold segIdx
  omega

theorem segIdx_mono {N : ℕ} {x y : ℚ} (hxy : x ≤ y) :
    segIdx N x ≤ segIdx N y := by
  have := Int.floor_le_floor hxy
  unfold segIdx
  omega

theorem beat_map_func_mono {b : List ℚ} (hp : b.Pairwise (· < ·))
    (h2 : 2 ≤ b.length) {x y : ℚ} (hxy : x ≤ y) :
    beat_map_func b x ≤ beat_map_func b y := by
  have hbx := segIdx_bounds h2 x
  have hby := segIdx_bounds h2 y
  have hmono : segIdx b.length x ≤ segIdx b.length y := segIdx_mono hxy
  have hsl : 0 < b.getD ((segIdx b.length x).toNat + 1) 0 -
      b.getD ((segIdx b.length x).toNat) 0 :=
    sub_pos.mpr (getD_pairwise_lt hp (Nat.lt_succ_self _) (by omega))
  rcases eq_or_lt_of_le hmono with heq | hlt
  · simp only [beat_map_func, ← heq]
    nlinarith [mul_nonneg (sub_nonneg.mpr hxy) hsl.le]
  · have hsly : 0 < b.getD ((segIdx b.length y).toNat + 1) 0 -
        b.getD ((segIdx b.length y).toNat) 0 :=
      sub_pos.mpr (getD_pairwise_lt hp (Nat.lt_succ_self _) (by omega))
    have hfx : ⌊x⌋ - 1 ≤ segIdx b.length x := by
      have h' := hlt
      have h'' := hby.2
      unfold segIdx at h' h'' ⊢
      omega
    have hfy : segIdx b.length y ≤ ⌊y⌋ - 1 := by
      have h' := hlt
      have h0 := hbx.1
      unfold segIdx at h' h0 ⊢
      omega
    have hxle : x ≤ ((segIdx b.length x).toNat : ℚ) + 2 := by
      have hfl := Int.lt_floor_add_one x
      have hZ : ⌊x⌋ ≤ ((segIdx b.length x).toNat : ℤ) + 1 := by omega
      have hQ : ((⌊x⌋ : ℤ) : ℚ) ≤ (((segIdx b.length x).toNat : ℤ) : ℚ) + 1 := by
        exact_mod_cast hZ
      push_cast at hQ
      linarith
    have hyge : ((segIdx b.length y).toNat : ℚ) + 1 ≤ y := by
      have hfl := Int.floor_le y
      have hZ : ((segIdx b.length y).toNat : ℤ) + 1 ≤ ⌊y⌋ := by omega
      have hQ : (((segIdx b.length y).toNat : ℤ) : ℚ) + 1 ≤ ((⌊y⌋ : ℤ) : ℚ) := by
        exact_mod_cast hZ
      push_cast at hQ
      linarith
    have hfxle : beat_map_func b x ≤ b.getD ((segIdx b.length x).toNat + 1) 0 := by
      simp only [beat_map_func]
      nlinarith [mul_nonneg
        (by linarith : (0 : ℚ) ≤ ((segIdx b.length x).toNat : ℚ) + 2 - x) hsl.le]
    have hfyge : b.getD ((segIdx b.length y).toNat) 0 ≤ beat_map_func b y := by
      simp only [beat_map_func]
      nlinarith [mul_nonneg
        (by linarith : (0 : ℚ) ≤ y - (((segIdx b.length y).toNat : ℚ) + 1)) hsly.le]
    have hmid : b.getD ((segIdx b.length x).toNat + 1) 0 ≤
        b.getD ((segIdx b.length y).toNat) 0 :=
      getD_pairwise_le hp (by omega) (by omega)
    linarith

/-! ## Claim C4 -/

/-- C4: for every strictly increasing beat array of length ≥ 2, every
`audio_len_sec ≥ 0`, and every `mini_beat_div_n` rounding to at least 1
division, the array returned by `extract_mini_beat_from_beat_arr` is
monotonically non-decreasing and every element lies within
`[0, audio_len_sec]`. -/
theorem c4_output_sorted_bounded (b : List ℚ) (L : ℚ) (n : ℤ)
    (h1 : StrictlyIncreasing b) (h2 : 2 ≤ b.length) (hL : 0 ≤ L)
    (hn : 1 ≤ mini_beat_divisions n) :
    (extract_mini_beat_from_beat_arr b L n).Sorted (· ≤ ·) ∧
      ∀ x ∈ extract_mini_beat_from_beat_arr b L n, 0 ≤ x ∧ x ≤ L := by
  constructor
  · have hp := h1.pairwise
    have hd1 : (1 : ℕ) ≤ (mini_beat_divisions n).toNat := by omega
    have hd0 : (0 : ℚ) < ((mini_beat_divisions n).toNat : ℚ) := by
      exact_mod_cast hd1
    have hidx : (mini_beat_abs_idx b.length
        ((mini_beat_divisions n).toNat)).Pairwise (· ≤ ·) := by
      unfold mini_beat_abs_idx
      refine List.Pairwise.map _ ?_ (List.pairwise_lt_range _)
      intro a c hac
      exact (div_le_div_iff_of_pos_right hd0).mpr (by exact_mod_cast hac.le)
    have hpos : ((mini_beat_abs_idx b.length
        ((mini_beat_divisions n).toNat)).map (beat_map_func b)).Pairwise
        (· ≤ ·) :=
      List.Pairwise.map _ (fun a c hac => beat_map_func_mono hp h2 hac) hidx
    simp only [extract_mini_beat_from_beat_arr]
    exact (hpos.filter _).filter _
  · intro x hx
    simp only [extract_mini_beat_from_beat_arr] at hx
    have hx2 := List.mem_filter.mp hx
    have hx1 := List.mem_filter.mp hx2.1
    exact ⟨by simpa using hx1.2, by simpa using hx2.2⟩

/-- C4 witness: the theorem applied to `[1, 2]`, `audio_len_sec = 10`,
`mini_beat_div_n = 8`. -/
theorem c4_output_sorted_bounded_witness :
    StrictlyIncreasing [1, 2] ∧ 2 ≤ ([1, 2] : List ℚ).length ∧ (0 : ℚ) ≤ 10 ∧
      1 ≤ mini_beat_divisions 8 ∧
      ((extract_mini_beat_from_beat_arr [1, 2] 10 8).Sorted (· ≤ ·) ∧
        ∀ x ∈ extract_mini_beat_from_beat_arr [1, 2] 10 8, 0 ≤ x ∧ x ≤ 10) :=
  ⟨by decide, by decide, by decide, by decide,
    c4_output_sorted_bounded [1, 2] 10 8 (by decide) (by decide) (by decide)
      (by decide)⟩
